import Mathlib

/-!
Verification of `kerseq/sequence_encoding.py`.

The Python module is a small library of sequence-to-numeric-array encoders.
We embed each function shallowly:

* a vocabulary index (`index_dict`) is modelled by a total map `idx : α → Nat`
  together with its size `n_symbols` where a bound matters; the claims under
  verification only concern inputs all of whose symbols are in the index, so
  restricting attention to the total map loses nothing;
* numpy integer matrices become `List (List Int)` / `List (List Nat)`;
  float matrices become rational-valued (`ℚ`) matrices, which captures the
  accumulation structure exactly (the claims are about which terms are summed,
  not about rounding);
* a Python call that raises (`ValueError`, `IndexError`, key errors, negative
  allocation sizes, out-of-bounds array writes) is modelled by `Option`:
  `none` means the call raises and produces no output.
-/

namespace Kerseq

/-- `[index_dict[c] + 1 for c in seq]` applied to every sequence
(`sequence_encoding.py` lines 34-36). -/
def indexSequencesOf (idx : α → Nat) (sequences : List (List α)) : List (List Nat) :=
  sequences.map (fun seq => seq.map (fun c => idx c + 1))

/-- Python `max(max(sequence) for sequence in index_sequences)`
(`sequence_encoding.py` line 37): raises (`none`) when the outer list is
empty or any inner list is empty, otherwise the maximum of the inner maxima. -/
def nestedMax? : List (List Nat) → Option Nat
  | [] => none
  | [s] => s.max?
  | s :: t :: rest =>
    match s.max?, nestedMax? (t :: rest) with
    | some m, some m2 => some (max m m2)
    | _, _ => none

/-- `sequences_to_indices` (`sequence_encoding.py` lines 11-46), for a
caller-supplied index: map every symbol to `index_dict[c] + 1`, compute the
global max, then (optionally) prepend `max_value + 1` to every sequence and
(optionally) append the incremented value to every sequence. -/
def sequences_to_indices (idx : α → Nat) (add_start_symbol add_end_symbol : Bool)
    (sequences : List (List α)) : Option (List (List Nat)) :=
  let index_sequences := indexSequencesOf idx sequences
  match nestedMax? index_sequences with
  | none => none
  | some max_value =>
    let p := if add_start_symbol
      then (max_value + 1, index_sequences.map (fun seq => (max_value + 1) :: seq))
      else (max_value, index_sequences)
    let iss := if add_end_symbol
      then p.2.map (fun seq => seq ++ [p.1 + 1])
      else p.2
    some iss

/-- One row assignment of `padded_indices` (`sequence_encoding.py` lines 74-78):
`result[i, :len(x)] = x` for `padding == 'post'`, `result[i, -len(x):] = x` for
`padding == 'pre'`, and no assignment at all for any other `padding` string
(the `if`/`elif` chain has no `else`).  The numpy assignment follows broadcast
rules.  For `ndim = 2` the target slice is one-dimensional of size
`min(len(x), max_len)`, and the assignment succeeds iff the source length
equals that size or the source has size 1: in particular a length-1 row with
`max_len = 0` is silently broadcast into the empty slice (no error, nothing
written), and a longer-than-width row of length ≥ 2 raises.  For `ndim > 2`
the target slice carries trailing singleton dimensions, against which a 1-D
source of length `k` broadcasts only when `k = 1` (right-aligned, `k` must
match a dimension of size 1).  For `'pre'` with an empty row, `result[i, -0:]`
is the whole row, so numpy fails unless `max_len = 0`. -/
def placeRow (ndim : Nat) (padding : String) (max_len : Nat) (x : List Nat) :
    Option (List Nat) :=
  if padding = "post" then
    if 2 < ndim ∧ x.length ≠ 1 then none
    else if x.length ≤ max_len then some (x ++ List.replicate (max_len - x.length) 0)
    else if x.length = 1 then some (List.replicate max_len 0)
    else none
  else if padding = "pre" then
    if 2 < ndim ∧ x.length ≠ 1 then none
    else if x.length = 0 then
      if max_len = 0 then some [] else none
    else if x.length ≤ max_len then some (List.replicate (max_len - x.length) 0 ++ x)
    else if x.length = 1 then some (List.replicate max_len 0)
    else none
  else some (List.replicate max_len 0)

/-- `padded_indices` (`sequence_encoding.py` lines 48-79).  The output shape is
`(n_samples, max_len)` extended by `ndim - 2` trailing singleton dimensions;
those extra dimensions never hold data, so the result is kept two-dimensional,
but they do change which row assignments broadcast (see `placeRow`), and the
`ndim < 2` `ValueError` check is retained.  `max_len = None` is computed as the
length of the longest index sequence (never an empty max here:
`sequences_to_indices` has already failed on empty input). -/
def padded_indices (idx : α → Nat) (ndim : Nat) (padding : String)
    (add_start_symbol add_end_symbol : Bool) (max_len? : Option Nat)
    (sequences : List (List α)) : Option (List (List Nat)) :=
  match sequences_to_indices idx add_start_symbol add_end_symbol sequences with
  | none => none
  | some index_sequences =>
    match (match max_len? with
           | none => (index_sequences.map List.length).max?
           | some m => some m) with
    | none => none
    | some max_len =>
      if ndim < 2 then none
      else index_sequences.mapM (placeRow ndim padding max_len)

/-- `onehot` (`sequence_encoding.py` lines 81-99) for a supplied index of size
`n_symbols`: a boolean tensor of shape `(n_seq, maxlen, n_symbols)` where
`maxlen` is the longest raw sequence (`max` raises — `none` — on an empty
sequence list), with `result[i, j, index_dict[sj]] = 1` for each position.
A symbol mapping outside `[0, n_symbols)` would be an out-of-bounds numpy
write, modelled as `none`. -/
def onehot (idx : α → Nat) (n_symbols : Nat) (sequences : List (List α)) :
    Option (List (List (List Bool))) :=
  match (sequences.map List.length).max? with
  | none => none
  | some maxlen =>
    if sequences.all (fun seq => seq.all (fun s => decide (idx s < n_symbols))) then
      some (sequences.map (fun seq =>
        (List.range maxlen).map (fun j =>
          (List.range n_symbols).map (fun k =>
            match seq[j]? with
            | some s => decide (idx s = k)
            | none => false))))
    else none

/-- Row `i` of the `FOFE` result (`sequence_encoding.py` lines 123-128), read
off cell by cell: cell `c` accumulates, over the positions `j` of the
sequence, `alpha ** (l-j-1)` whenever the forward write
`result[i, index_dict[sj]] += ...` targets column `c`, plus (when
`bidirectional`) `alpha ** j` whenever the backward write
`result[i, n_symbols + index_dict[sj]] += ...` targets column `c`. -/
def fofeRow (idx : α → Nat) (n_symbols : Nat) (alpha : ℚ) (bidirectional : Bool)
    (num_cols : Nat) (seq : List α) : List ℚ :=
  let l := seq.length
  (List.range num_cols).map (fun c =>
    (seq.enum.map (fun p =>
      (if idx p.2 = c then alpha ^ (l - p.1 - 1) else 0) +
      (if bidirectional = true ∧ n_symbols + idx p.2 = c then alpha ^ p.1 else 0))).sum)

/-- `FOFE` (`sequence_encoding.py` lines 101-132) for a supplied index of size
`n_symbols`.  Column count is `2 * n_symbols` when `bidirectional` else
`n_symbols`.  The `sparse` flag only selects the backing storage
(`dok_matrix` vs dense) and leaves every accumulated value identical, so it
is not a parameter here; float arithmetic is carried out exactly over `ℚ`.
A symbol mapping outside `[0, n_symbols)` (impossible for a proper
vocabulary index) is modelled as `none`. -/
def FOFE (idx : α → Nat) (n_symbols : Nat) (alpha : ℚ) (bidirectional : Bool)
    (sequences : List (List α)) : Option (List (List ℚ)) :=
  let num_cols := if bidirectional then 2 * n_symbols else n_symbols
  if sequences.all (fun seq => seq.all (fun s => decide (idx s < n_symbols))) then
    some (sequences.map (fofeRow idx n_symbols alpha bidirectional num_cols))
  else none

/-- The forward FOFE value the spec describes for cell `(i, c)`: the sum of
`alpha ** (l-j-1)` over the positions `j` of sequence `i` holding a symbol of
index `c`. -/
def fofeForwardSpec (idx : α → Nat) (alpha : ℚ) (seq : List α) (c : Nat) : ℚ :=
  (seq.enum.map (fun p =>
    if idx p.2 = c then alpha ^ (seq.length - p.1 - 1) else 0)).sum

/-- The backward FOFE value the spec describes for cell `(i, n_symbols + c)`:
the sum of `alpha ** j` over the positions `j` of sequence `i` holding a
symbol of index `c`. -/
def fofeBackwardSpec (idx : α → Nat) (alpha : ℚ) (seq : List α) (c : Nat) : ℚ :=
  (seq.enum.map (fun p => if idx p.2 = c then alpha ^ p.1 else 0)).sum

/-- Cell `(i, k)` of the `BOW` count matrix (`sequence_encoding.py` lines
152-154): each occurrence of a symbol of index `k` in the sequence performs
`counts[i, k] = min(counts[i, k] + 1, max_count)`, in sequence order;
`max_count = None` is `np.infty`, i.e. the `min` never clamps. -/
def bowCell (idx : α → Nat) (max_count : Option ℚ) (seq : List α) (k : Nat) : ℚ :=
  seq.foldl (fun acc s =>
    if idx s = k then
      match max_count with
      | none => acc + 1
      | some m => min (acc + 1) m
    else acc) 0

/-- `BOW` (`sequence_encoding.py` lines 134-167) with `df = None` and
`normalize = False` (the claims under verification concern the count
accumulation; the optional IDF multiply and row normalisation are applied
after it and are not modelled).  As for `FOFE`, `sparse` only selects the
backing storage, and float arithmetic is exact over `ℚ`. -/
def BOW (idx : α → Nat) (n_symbols : Nat) (max_count : Option ℚ)
    (sequences : List (List α)) : Option (List (List ℚ)) :=
  if sequences.all (fun seq => seq.all (fun s => decide (idx s < n_symbols))) then
    some (sequences.map (fun seq =>
      (List.range n_symbols).map (bowCell idx max_count seq)))
  else none

/-- `np.sum(row > 0)` (`sequence_encoding.py` line 181): the number of
strictly positive entries of a row. -/
def countNonzero (row : List Int) : Nat := (row.filter (fun v => 0 < v)).length

/-- The `(context, target)` pairs produced from one row of the input matrix by
the inner loop of `padded_indices_to_next_symbol_as_output`
(`sequence_encoding.py` lines 188-197), in loop order
`j = 1, ..., samp_row_adj - 1` where `samp_row_adj = np.sum(row > 0)`:

* `padding == 'post'`: `X_out[counter, :j] = row[:j]`, `y_out[counter] = row[j]`
  (the context written into a zero row of width `d - 1`);
* `padding == 'pre'`: `X_out[counter, -j:] = row[-samp_row_adj : -samp_row_adj+j]`,
  `y_out[counter] = row[-samp_row_adj + j]` (negative Python indices on a row
  of length `d` resolve to offsets from `d`);
* any other `padding` string: neither branch runs, so the pre-allocated zero
  row and zero target are left in place while `counter` still advances. -/
def samplesRow (padding : String) (d : Nat) (row : List Int) : List (List Int × Int) :=
  let samp_row_adj := countNonzero row
  (List.range' 1 (samp_row_adj - 1)).map (fun j =>
    if padding = "post" then
      (row.take j ++ List.replicate (d - 1 - j) 0, row.getD j 0)
    else if padding = "pre" then
      (List.replicate (d - 1 - j) 0 ++ (row.drop (d - samp_row_adj)).take j,
        row.getD (d - samp_row_adj + j) 0)
    else
      (List.replicate (d - 1) 0, 0))

/-- `padded_indices_to_next_symbol_as_output` (`sequence_encoding.py` lines
169-199).  `d = X.shape[1]` raises an `IndexError` on an empty matrix
(`np.array([])` is one-dimensional), modelled as `none`.
`total_output_samples` sums `np.sum(row > 0) - 1` over the rows; a negative
total makes `np.zeros` raise (`none`).  Array writes only happen inside the
`'post'`/`'pre'` branches: there the loop performs one write per pair, and
when the number of writes exceeds the pre-allocated `total_output_samples`
rows (which happens exactly when some row has no positive entry), the write
is out of bounds (`none`); otherwise the pairs, concatenated across rows in
row order, are the output.  For any other `padding` string the loop only
advances `counter`, so the call succeeds and returns the untouched
zero-initialised arrays of `total_output_samples` rows. -/
def padded_indices_to_next_symbol_as_output (X : List (List Int)) (padding : String) :
    Option (List (List Int) × List Int) :=
  match X with
  | [] => none
  | r0 :: _ =>
    let d := r0.length
    let samples_in_row := X.map (fun row => (countNonzero row : Int) - 1)
    let total_output_samples := samples_in_row.sum
    if total_output_samples < 0 then none
    else if padding = "post" ∨ padding = "pre" then
      let pairs := X.flatMap (samplesRow padding d)
      if total_output_samples < (pairs.length : Int) then none
      else some (pairs.map Prod.fst, pairs.map Prod.snd)
    else
      some (List.replicate total_output_samples.toNat (List.replicate (d - 1) 0),
            List.replicate total_output_samples.toNat 0)

/-- The pairs claimed by the spec for `padding='post'`: for `j = 1..k-1`
(`k` the number of non-padding entries of the row), context `row[0:j]` padded
with trailing zeros to width `d - 1`, target `row[j]`. -/
def nextSymbolPairsPost (d : Nat) (row : List Int) : List (List Int × Int) :=
  (List.range' 1 (countNonzero row - 1)).map (fun j =>
    (row.take j ++ List.replicate (d - 1 - j) 0, row.getD j 0))

theorem max?_append_of_some {l1 l2 : List Nat} {m1 m2 : Nat}
    (h1 : l1.max? = some m1) (h2 : l2.max? = some m2) :
    (l1 ++ l2).max? = some (max m1 m2) := by
  rw [List.max?_eq_some_iff'] at h1 h2 ⊢
  obtain ⟨hm1, hb1⟩ := h1
  obtain ⟨hm2, hb2⟩ := h2
  constructor
  · rcases max_choice m1 m2 with h | h <;> rw [h]
    · exact List.mem_append_left _ hm1
    · exact List.mem_append_right _ hm2
  · intro b hb
    rcases List.mem_append.1 hb with h | h
    · exact le_trans (hb1 b h) (le_max_left _ _)
    · exact le_trans (hb2 b h) (le_max_right _ _)

theorem nestedMax?_eq_max?_flatten (iss : List (List Nat))
    (h : ∀ s ∈ iss, s ≠ []) : nestedMax? iss = iss.flatten.max? := by
  induction iss with
  | nil => rfl
  | cons s rest ih =>
    cases rest with
    | nil => simp [nestedMax?]
    | cons t rest' =>
      have hs : s ≠ [] := h s (by simp)
      have hrest : ∀ u ∈ t :: rest', u ≠ [] := fun u hu => h u (List.mem_cons_of_mem _ hu)
      have ih' := ih hrest
      cases hm1 : s.max? with
      | none => exact absurd (List.max?_eq_none_iff.1 hm1) hs
      | some m1 =>
        have ht : t ≠ [] := hrest t (by simp)
        have hfl : (t :: rest').flatten ≠ [] := by
          simp only [List.flatten_cons]
          intro hc
          exact ht (List.append_eq_nil.1 hc).1
        cases hm2 : (t :: rest').flatten.max? with
        | none => exact absurd (List.max?_eq_none_iff.1 hm2) hfl
        | some m2 =>
          have hn2 : nestedMax? (t :: rest') = some m2 := ih'.trans hm2
          have hlhs : nestedMax? (s :: t :: rest') = some (max m1 m2) := by
            rw [nestedMax?, hm1, hn2]
          rw [hlhs]
          have : (s :: t :: rest').flatten = s ++ (t :: rest').flatten := by simp
          rw [this, max?_append_of_some hm1 hm2]

theorem indexSequencesOf_ne_nil (idx : α → Nat) (sequences : List (List α))
    (hne : sequences ≠ []) : indexSequencesOf idx sequences ≠ [] := by
  simpa [indexSequencesOf] using hne

theorem indexSequencesOf_all_ne_nil (idx : α → Nat) (sequences : List (List α))
    (hall : ∀ s ∈ sequences, s ≠ []) :
    ∀ s ∈ indexSequencesOf idx sequences, s ≠ [] := by
  intro s hs
  obtain ⟨t, ht, rfl⟩ := List.mem_map.1 hs
  simpa using hall t ht

/-- **C1.** With `add_start_symbol = True` and `add_end_symbol = True`, on a
non-empty list of non-empty sequences every returned sequence begins with
`M + 1` (the START sentinel) and ends with `M + 2 = START + 1` (the END
sentinel), where `M` is the single global maximum of `index_dict[c] + 1` over
all positions of all input sequences. -/
theorem sequences_to_indices_start_end (idx : α → Nat) (sequences : List (List α))
    (M : Nat) (hne : sequences ≠ []) (hall : ∀ s ∈ sequences, s ≠ [])
    (hM : ((indexSequencesOf idx sequences).flatten).max? = some M) :
    ∃ iss, sequences_to_indices idx true true sequences = some iss ∧ iss ≠ [] ∧
      ∀ row ∈ iss, row.head? = some (M + 1) ∧ row.getLast? = some (M + 2) := by
  have hmax : nestedMax? (indexSequencesOf idx sequences) = some M :=
    (nestedMax?_eq_max?_flatten _ (indexSequencesOf_all_ne_nil idx sequences hall)).trans hM
  refine ⟨(indexSequencesOf idx sequences).map
    (fun seq => ((M + 1) :: seq) ++ [M + 1 + 1]), ?_, ?_, ?_⟩
  · simp only [sequences_to_indices, hmax, if_true, List.map_map]
    rfl
  · simpa [indexSequencesOf] using hne
  · intro row hrow
    obtain ⟨s, _, rfl⟩ := List.mem_map.1 hrow
    exact ⟨rfl, List.getLast?_concat _⟩

/-- Witness for C1 at a concrete input: sequences `[[0,1],[2]]` over the
identity index, where `M = 3` and every row starts with `4` and ends with `5`. -/
theorem sequences_to_indices_start_end_witness :
    ([[0,1],[2]] : List (List Nat)) ≠ [] ∧
    (∀ s ∈ ([[0,1],[2]] : List (List Nat)), s ≠ []) ∧
    ((indexSequencesOf (fun n => n) [[0,1],[2]]).flatten).max? = some 3 ∧
    (∃ iss, sequences_to_indices (fun n => n) true true [[0,1],[2]] = some iss ∧
      iss ≠ [] ∧ ∀ row ∈ iss, row.head? = some 4 ∧ row.getLast? = some 5) :=
  ⟨by decide, by decide, by decide,
    sequences_to_indices_start_end (fun n => n) [[0,1],[2]] 3
      (by decide) (by decide) (by decide)⟩

theorem nestedMax?_all_ne_nil :
    ∀ {iss : List (List Nat)} {m : Nat}, nestedMax? iss = some m → ∀ s ∈ iss, s ≠ []
  | [], _, _ => by simp
  | [s], m, h => by
    intro u hu
    rw [List.mem_singleton] at hu
    subst hu
    rw [nestedMax?] at h
    intro hnil
    subst hnil
    simp at h
  | s :: t :: rest, m, h => by
    rw [nestedMax?] at h
    cases hm1 : s.max? with
    | none => rw [hm1] at h; simp at h
    | some m1 =>
      cases hm2 : nestedMax? (t :: rest) with
      | none => rw [hm1, hm2] at h; simp at h
      | some m2 =>
        intro u hu
        rcases List.mem_cons.1 hu with rfl | hu'
        · intro hnil; subst hnil; simp at hm1
        · exact nestedMax?_all_ne_nil hm2 u hu'

theorem sequences_to_indices_shape {idx : α → Nat} {as ae : Bool}
    {sequences : List (List α)} {iss : List (List Nat)}
    (hiss : sequences_to_indices idx as ae sequences = some iss) :
    ∃ mv, nestedMax? (indexSequencesOf idx sequences) = some mv ∧
      iss = (if ae then
              ((if as then
                  (indexSequencesOf idx sequences).map (fun seq => (mv + 1) :: seq)
                else indexSequencesOf idx sequences).map
                (fun seq => seq ++ [(if as then mv + 1 else mv) + 1]))
             else if as then
               (indexSequencesOf idx sequences).map (fun seq => (mv + 1) :: seq)
             else indexSequencesOf idx sequences) := by
  simp only [sequences_to_indices] at hiss
  cases hnm : nestedMax? (indexSequencesOf idx sequences) with
  | none => rw [hnm] at hiss; simp at hiss
  | some mv =>
    rw [hnm] at hiss
    refine ⟨mv, rfl, ?_⟩
    cases as <;> cases ae <;> simp_all

theorem sequences_to_indices_length {idx : α → Nat} {as ae : Bool}
    {sequences : List (List α)} {iss : List (List Nat)}
    (hiss : sequences_to_indices idx as ae sequences = some iss) :
    iss.length = sequences.length := by
  obtain ⟨mv, -, rfl⟩ := sequences_to_indices_shape hiss
  cases as <;> cases ae <;> simp [indexSequencesOf]

theorem sequences_to_indices_rows_pos {idx : α → Nat} {as ae : Bool}
    {sequences : List (List α)} {iss : List (List Nat)}
    (hiss : sequences_to_indices idx as ae sequences = some iss) :
    ∀ x ∈ iss, ∀ v ∈ x, 0 < v := by
  obtain ⟨mv, -, rfl⟩ := sequences_to_indices_shape hiss
  have base : ∀ x ∈ indexSequencesOf idx sequences, ∀ v ∈ x, 0 < v := by
    intro x hx v hv
    obtain ⟨s, -, rfl⟩ := List.mem_map.1 hx
    obtain ⟨c, -, rfl⟩ := List.mem_map.1 hv
    exact Nat.succ_pos _
  cases as <;> cases ae <;> simp only [Bool.false_eq_true, eq_self_iff_true, if_true, if_false] <;> intro x hx v hv
  · exact base x hx v hv
  · obtain ⟨s, hs, rfl⟩ := List.mem_map.1 hx
    rcases List.mem_append.1 hv with h | h
    · exact base s hs v h
    · rw [List.mem_singleton] at h; omega
  · obtain ⟨s, hs, rfl⟩ := List.mem_map.1 hx
    rcases List.mem_cons.1 hv with rfl | h
    · omega
    · exact base s hs v h
  · obtain ⟨s, hs, rfl⟩ := List.mem_map.1 hx
    obtain ⟨u, hu, rfl⟩ := List.mem_map.1 hs
    rcases List.mem_append.1 hv with h | h
    · rcases List.mem_cons.1 h with rfl | h'
      · omega
      · exact base u hu v h'
    · rw [List.mem_singleton] at h; omega

theorem sequences_to_indices_rows_ne_nil {idx : α → Nat} {as ae : Bool}
    {sequences : List (List α)} {iss : List (List Nat)}
    (hiss : sequences_to_indices idx as ae sequences = some iss) :
    ∀ x ∈ iss, x ≠ [] := by
  obtain ⟨mv, hmv, rfl⟩ := sequences_to_indices_shape hiss
  have base : ∀ x ∈ indexSequencesOf idx sequences, x ≠ [] :=
    nestedMax?_all_ne_nil hmv
  cases as <;> cases ae <;> simp only [Bool.false_eq_true, eq_self_iff_true, if_true, if_false] <;> intro x hx
  · exact base x hx
  · obtain ⟨s, -, rfl⟩ := List.mem_map.1 hx
    simp
  · obtain ⟨s, -, rfl⟩ := List.mem_map.1 hx
    simp
  · obtain ⟨s, -, rfl⟩ := List.mem_map.1 hx
    simp

theorem mapM_option_eq_map {α β} {f : α → Option β} {g : α → β} :
    ∀ {l : List α}, (∀ x ∈ l, f x = some (g x)) → l.mapM f = some (l.map g)
  | [], _ => rfl
  | a :: l, h => by
    rw [List.mapM_cons, h a (by simp), mapM_option_eq_map (fun x hx => h x (by simp [hx]))]
    rfl

theorem mapM_option_eq_none {α β} {f : α → Option β} :
    ∀ {l : List α} {x : α}, x ∈ l → f x = none → l.mapM f = none
  | a :: l, x, hx, hfx => by
    rw [List.mapM_cons]
    rcases List.mem_cons.1 hx with rfl | hx'
    · rw [hfx]; rfl
    · cases hfa : f a with
      | none => rfl
      | some b => rw [mapM_option_eq_none hx' hfx]; rfl

theorem filter_ne_zero_replicate_zero (n : Nat) :
    (List.replicate n (0 : Nat)).filter (fun v => decide (v ≠ 0)) = [] := by
  induction n with
  | zero => rfl
  | succ k ih => simp [List.replicate_succ, ih]

theorem filter_ne_zero_of_pos {x : List Nat} (hx : ∀ v ∈ x, 0 < v) :
    x.filter (fun v => decide (v ≠ 0)) = x := by
  refine List.filter_eq_self.2 (fun v hv => ?_)
  simpa using Nat.pos_iff_ne_zero.1 (hx v hv)

/-- **C4.** On valid input, `padded_indices` with `padding='post'` places row
`i`'s index sequence at positions `[0:len]` and with `padding='pre'` at
positions `[max_len-len:max_len]`, zeros elsewhere; stripping the zero entries
of either matrix recovers the same index sequence per row. -/
theorem padded_indices_pre_post_agree {idx : α → Nat} {as ae : Bool}
    {sequences : List (List α)} {iss : List (List Nat)} {L : Nat}
    (hiss : sequences_to_indices idx as ae sequences = some iss)
    (hL : ∀ x ∈ iss, x.length ≤ L) :
    padded_indices idx 2 "post" as ae (some L) sequences
      = some (iss.map (fun x => x ++ List.replicate (L - x.length) 0)) ∧
    padded_indices idx 2 "pre" as ae (some L) sequences
      = some (iss.map (fun x => List.replicate (L - x.length) 0 ++ x)) ∧
    ∀ x ∈ iss,
      (x ++ List.replicate (L - x.length) 0).filter (fun v => decide (v ≠ 0)) = x ∧
      (List.replicate (L - x.length) 0 ++ x).filter (fun v => decide (v ≠ 0)) = x := by
  have hpos := sequences_to_indices_rows_pos hiss
  have hnn := sequences_to_indices_rows_ne_nil hiss
  refine ⟨?_, ?_, ?_⟩
  · simp only [padded_indices, hiss]
    rw [if_neg (by omega)]
    exact mapM_option_eq_map (fun x hx => by
      unfold placeRow
      rw [if_pos rfl,
        if_neg (show ¬(2 < 2 ∧ x.length ≠ 1) from fun h => absurd h.1 (by omega)),
        if_pos (hL x hx)])
  · simp only [padded_indices, hiss]
    rw [if_neg (by omega)]
    exact mapM_option_eq_map (fun x hx => by
      unfold placeRow
      rw [if_neg (by decide), if_pos rfl,
        if_neg (show ¬(2 < 2 ∧ x.length ≠ 1) from fun h => absurd h.1 (by omega)),
        if_neg (fun h => hnn x hx (List.length_eq_zero.1 h)), if_pos (hL x hx)])
  · intro x hx
    constructor
    · rw [List.filter_append, filter_ne_zero_of_pos (hpos x hx),
        filter_ne_zero_replicate_zero, List.append_nil]
    · rw [List.filter_append, filter_ne_zero_of_pos (hpos x hx),
        filter_ne_zero_replicate_zero, List.nil_append]

/-- Witness for C4: sequences `[[0],[1,1]]` over the identity index encode to
`[[3,1,4],[3,2,2,4]]`, padded to width 5 both ways. -/
theorem padded_indices_pre_post_agree_witness :
    (sequences_to_indices (fun n => n) true true [[0],[1,1]]
      = some [[3,1,4],[3,2,2,4]]) ∧
    (∀ x ∈ ([[3,1,4],[3,2,2,4]] : List (List Nat)), x.length ≤ 5) ∧
    (padded_indices (fun n => n) 2 "post" true true (some 5) [[0],[1,1]]
      = some (([[3,1,4],[3,2,2,4]] : List (List Nat)).map
          (fun x => x ++ List.replicate (5 - x.length) 0)) ∧
    padded_indices (fun n => n) 2 "pre" true true (some 5) [[0],[1,1]]
      = some (([[3,1,4],[3,2,2,4]] : List (List Nat)).map
          (fun x => List.replicate (5 - x.length) 0 ++ x)) ∧
    ∀ x ∈ ([[3,1,4],[3,2,2,4]] : List (List Nat)),
      (x ++ List.replicate (5 - x.length) 0).filter (fun v => decide (v ≠ 0)) = x ∧
      (List.replicate (5 - x.length) 0 ++ x).filter (fun v => decide (v ≠ 0)) = x) :=
  ⟨by decide, by decide, padded_indices_pre_post_agree (by decide) (by decide)⟩

/-- **C9 counterexample.** A too-long sequence does not always raise: with no
sentinels, the one-symbol sequence `[0]` encodes to `[1]` of length `1 > 0 =
max_len`, yet numpy broadcasts the size-1 source into the empty target slice
and `padded_indices` silently returns the `(1, 0)` matrix — the sequence is
dropped without any error. -/
theorem padded_indices_truncation_counterexample :
    padded_indices (fun n => n) 2 "pre" false false (some 0) [[0]] = some [[]] ∧
    padded_indices (fun n => n) 2 "post" false false (some 0) [[0]] = some [[]] := by
  decide

/-- **C9 (amended).** When `max_len` is supplied and some resulting index
sequence of length at least 2 is strictly longer than it, `padded_indices`
(with `padding='pre'` or `'post'`, default `ndim = 2`) fails: the row
assignment is a numpy broadcast error, so no output is produced and no such
sequence is silently truncated.  (The sole silent case is a length-1 index
sequence with `max_len = 0`, which broadcasting drops.) -/
theorem padded_indices_no_truncation {idx : α → Nat} {as ae : Bool}
    {padding : String} {sequences : List (List α)} {iss : List (List Nat)}
    {L : Nat} {x : List Nat}
    (hiss : sequences_to_indices idx as ae sequences = some iss)
    (hx : x ∈ iss) (hlen : L < x.length) (h2 : 2 ≤ x.length)
    (hpad : padding = "pre" ∨ padding = "post") :
    padded_indices idx 2 padding as ae (some L) sequences = none := by
  simp only [padded_indices, hiss]
  rw [if_neg (by omega)]
  refine mapM_option_eq_none hx ?_
  rcases hpad with rfl | rfl
  · unfold placeRow
    rw [if_neg (by decide), if_pos rfl,
      if_neg (show ¬(2 < 2 ∧ x.length ≠ 1) from fun h => absurd h.1 (by omega)),
      if_neg (by omega), if_neg (by omega), if_neg (by omega)]
  · unfold placeRow
    rw [if_pos rfl,
      if_neg (show ¬(2 < 2 ∧ x.length ≠ 1) from fun h => absurd h.1 (by omega)),
      if_neg (by omega), if_neg (by omega)]

/-- Witness for C9 (amended): `[[0,1]]` encodes to `[[3,1,2,4]]` of length
`4 ≥ 2`, and `max_len = 3` makes the call fail. -/
theorem padded_indices_no_truncation_witness :
    (sequences_to_indices (fun n => n) true true [[0,1]] = some [[3,1,2,4]]) ∧
    ([3,1,2,4] : List Nat) ∈ ([[3,1,2,4]] : List (List Nat)) ∧
    3 < ([3,1,2,4] : List Nat).length ∧
    2 ≤ ([3,1,2,4] : List Nat).length ∧
    (("pre" : String) = "pre" ∨ ("pre" : String) = "post") ∧
    padded_indices (fun n => n) 2 "pre" true true (some 3) [[0,1]] = none :=
  ⟨by decide, by decide, by decide, by decide, Or.inl rfl,
    @padded_indices_no_truncation Nat (fun n => n) true true "pre" [[0,1]]
      [[3,1,2,4]] 3 [3,1,2,4] (by decide) (by decide) (by decide) (by decide)
      (Or.inl rfl)⟩

/-- **C10.** A `padding` argument other than `'pre'` and `'post'` is not an
error: every row assignment is silently skipped and the call returns the
all-zero matrix of shape `(n_samples, max_len)`. -/
theorem padded_indices_unknown_padding_all_zero {idx : α → Nat} {as ae : Bool}
    {padding : String} {sequences : List (List α)} {iss : List (List Nat)}
    {max_len? : Option Nat} {L : Nat}
    (hiss : sequences_to_indices idx as ae sequences = some iss)
    (heff : (match max_len? with
             | none => (iss.map List.length).max?
             | some m => some m) = some L)
    (hpost : padding ≠ "post") (hpre : padding ≠ "pre") :
    padded_indices idx 2 padding as ae max_len? sequences
      = some (List.replicate sequences.length (List.replicate L 0)) := by
  simp only [padded_indices, hiss, heff]
  rw [if_neg (by omega)]
  have : iss.mapM (placeRow 2 padding L) = some (iss.map (fun _ => List.replicate L 0)) :=
    mapM_option_eq_map (fun x _ => by
      unfold placeRow
      rw [if_neg hpost, if_neg hpre])
  rw [this, List.map_const', sequences_to_indices_length hiss]

/-- Witness for C10: misspelled padding `'psot'` on `[[0,1]]` yields the
all-zero `1 × 4` matrix. -/
theorem padded_indices_unknown_padding_all_zero_witness :
    (sequences_to_indices (fun n => n) true true [[0,1]] = some [[3,1,2,4]]) ∧
    ((match (none : Option Nat) with
      | none => (([[3,1,2,4]] : List (List Nat)).map List.length).max?
      | some m => some m) = some 4) ∧
    ("psot" : String) ≠ "post" ∧ ("psot" : String) ≠ "pre" ∧
    padded_indices (fun n => n) 2 "psot" true true none [[0,1]]
      = some (List.replicate ([[0,1]] : List (List Nat)).length (List.replicate 4 0)) :=
  ⟨by decide, by decide, by decide, by decide,
    @padded_indices_unknown_padding_all_zero Nat (fun n => n) true true "psot"
      [[0,1]] [[3,1,2,4]] none 4 (by decide) (by decide) (by decide) (by decide)⟩

theorem countNonzero_le_length (row : List Int) : countNonzero row ≤ row.length :=
  List.length_filter_le _ _

theorem samplesRow_post_eq (d : Nat) (row : List Int) :
    samplesRow "post" d row = nextSymbolPairsPost d row := by
  simp [samplesRow, nextSymbolPairsPost]

theorem length_samplesRow (p : String) (d : Nat) (row : List Int) :
    (samplesRow p d row).length = countNonzero row - 1 := by
  simp [samplesRow]

theorem length_flatMap_samplesRow (p : String) (d : Nat) (X : List (List Int)) :
    (X.flatMap (samplesRow p d)).length
      = (X.map (fun row => countNonzero row - 1)).sum := by
  induction X with
  | nil => rfl
  | cons r t ih => simp [List.flatMap_cons, length_samplesRow, ih]

theorem totalSamples_le (X : List (List Int)) :
    (X.map (fun row => (countNonzero row : Int) - 1)).sum
      ≤ ((X.map (fun row => countNonzero row - 1)).sum : Int) := by
  induction X with
  | nil => simp
  | cons r t ih =>
    simp only [List.map_cons, List.sum_cons, Nat.cast_add]
    omega

theorem totalSamples_eq {X : List (List Int)}
    (hk : ∀ row ∈ X, 1 ≤ countNonzero row) :
    (X.map (fun row => (countNonzero row : Int) - 1)).sum
      = ((X.map (fun row => countNonzero row - 1)).sum : Int) := by
  induction X with
  | nil => simp
  | cons r t ih =>
    have h1 := hk r (by simp)
    have ih' := ih (fun row hr => hk row (by simp [hr]))
    simp only [List.map_cons, List.sum_cons, Nat.cast_add]
    omega

theorem totalSamples_lt {X : List (List Int)} {row0 : List Int}
    (h0 : row0 ∈ X) (hz : countNonzero row0 = 0) :
    (X.map (fun row => (countNonzero row : Int) - 1)).sum
      < ((X.map (fun row => countNonzero row - 1)).sum : Int) := by
  induction X with
  | nil => simp at h0
  | cons r t ih =>
    simp only [List.map_cons, List.sum_cons, Nat.cast_add]
    rcases List.mem_cons.1 h0 with rfl | h0'
    · have := totalSamples_le t
      omega
    · have := ih h0'
      omega

/-- **C2 (amended).** On a non-empty matrix all of whose rows (of common width
`d`) have at least one strictly positive entry, `padding='post'` yields, for
each row with `k` strictly positive entries, exactly the `k-1` pairs
`(row[0:j] zero-padded to width d-1, row[j])` for `j = 1..k-1`, concatenated
across rows in input row order; every context has width `d - 1`. -/
theorem padded_indices_to_next_symbol_post {X : List (List Int)} {d : Nat}
    (hne : X ≠ []) (hd : ∀ row ∈ X, row.length = d)
    (hk : ∀ row ∈ X, 1 ≤ countNonzero row) :
    padded_indices_to_next_symbol_as_output X "post"
      = some ((X.flatMap (nextSymbolPairsPost d)).map Prod.fst,
              (X.flatMap (nextSymbolPairsPost d)).map Prod.snd) ∧
    ∀ c ∈ (X.flatMap (nextSymbolPairsPost d)).map Prod.fst, c.length = d - 1 := by
  obtain ⟨r0, rest, rfl⟩ := List.exists_cons_of_ne_nil hne
  constructor
  · have htot : ((r0 :: rest).map (fun row => (countNonzero row : Int) - 1)).sum
        = (((r0 :: rest).map (fun row => countNonzero row - 1)).sum : Int) :=
      totalSamples_eq hk
    have hlen := length_flatMap_samplesRow "post" d (r0 :: rest)
    have hnonneg : ¬ ((r0 :: rest).map (fun row => (countNonzero row : Int) - 1)).sum < 0 := by
      rw [htot]
      omega
    have hflat : (r0 :: rest).flatMap (samplesRow "post" ((r0 :: rest).headI.length))
        = (r0 :: rest).flatMap (nextSymbolPairsPost d) := by
      have hd0 : r0.length = d := hd r0 (by simp)
      simp only [List.headI, hd0]
      exact List.flatMap_congr (fun row _ => samplesRow_post_eq d row)
    simp only [padded_indices_to_next_symbol_as_output, List.headI] at hflat ⊢
    rw [if_neg hnonneg, if_pos (Or.inl (by trivial)), hflat]
    rw [show ((r0 :: rest).flatMap (nextSymbolPairsPost d)).length
        = ((r0 :: rest).flatMap (samplesRow "post" d)).length from by
      rw [List.flatMap_congr (fun row _ => (samplesRow_post_eq d row).symm)]]
    rw [if_neg (by rw [length_flatMap_samplesRow]; omega)]
  · intro c hc
    obtain ⟨pr, hpr, rfl⟩ := List.mem_map.1 hc
    obtain ⟨row, hrow, hpr'⟩ := List.mem_flatMap.1 hpr
    obtain ⟨j, hj, rfl⟩ := List.mem_map.1 hpr'
    have hj' : 1 ≤ j ∧ j < 1 + (countNonzero row - 1) := List.mem_range'_1.1 hj
    have hkd : countNonzero row ≤ d := hd row hrow ▸ countNonzero_le_length row
    have hjd : j ≤ d - 1 := by omega
    have hjlen : j ≤ row.length := by rw [hd row hrow]; omega
    simp only [List.length_append, List.length_take, List.length_replicate]
    omega

/-- Witness for C2: matrix `[[1,2],[0,9]]` of width 2; the first row (two
positive entries) yields one pair `([1], 2)`, the second (one positive entry)
yields none. -/
theorem padded_indices_to_next_symbol_post_witness :
    (([[1,2],[0,9]] : List (List Int)) ≠ []) ∧
    (∀ row ∈ ([[1,2],[0,9]] : List (List Int)), row.length = 2) ∧
    (∀ row ∈ ([[1,2],[0,9]] : List (List Int)), 1 ≤ countNonzero row) ∧
    (padded_indices_to_next_symbol_as_output [[1,2],[0,9]] "post"
      = some ((([[1,2],[0,9]] : List (List Int)).flatMap (nextSymbolPairsPost 2)).map Prod.fst,
              (([[1,2],[0,9]] : List (List Int)).flatMap (nextSymbolPairsPost 2)).map Prod.snd) ∧
    ∀ c ∈ (([[1,2],[0,9]] : List (List Int)).flatMap (nextSymbolPairsPost 2)).map Prod.fst,
      c.length = 2 - 1) :=
  ⟨by decide, by decide, by decide,
    padded_indices_to_next_symbol_post (by decide) (by decide) (by decide)⟩

/-- **C3 counterexample.** The claim applies `padding='post'` to the
pre-padded row `[0,0,3,5,7]` and expects `([3,0,0,0],5), ([3,5,0,0],7)`; the
code, reading contexts from `row[:j]`, actually emits `([0,0,0,0],0),
([0,0,0,0],3)` there. -/
theorem window_example_post_counterexample :
    padded_indices_to_next_symbol_as_output [[0,0,3,5,7]] "post"
      = some ([[0,0,0,0],[0,0,0,0]], [0,3]) := by decide

/-- **C3 (amended).** On the post-padded row `[3,5,7,0,0]` (width 5),
`padding='post'` yields exactly the two pairs `([3,0,0,0],5)` and
`([3,5,0,0],7)`, in that order. -/
theorem window_example_post :
    padded_indices_to_next_symbol_as_output [[3,5,7,0,0]] "post"
      = some ([[3,0,0,0],[3,5,0,0]], [5,7]) := by decide

/-- **C8 counterexample.** A matrix whose every row has fewer than 2
non-padding values does not necessarily fail: `[[1,0]]` (one positive entry)
succeeds, returning zero output pairs. -/
theorem window_failure_counterexample :
    padded_indices_to_next_symbol_as_output [[1,0]] "post" = some ([], []) := by
  decide

/-- **C8 (amended).** `padded_indices_to_next_symbol_as_output` fails on an
empty matrix (any padding); with `padding='post'` or `'pre'` it also fails
whenever some row has no positive entry at all; and a non-empty matrix whose
every row has exactly one positive entry succeeds (any padding), returning
the empty (zero-row) output. -/
theorem window_failure_conditions :
    (∀ p, padded_indices_to_next_symbol_as_output [] p = none) ∧
    (∀ (X : List (List Int)) p row, p = "post" ∨ p = "pre" → row ∈ X →
      countNonzero row = 0 → padded_indices_to_next_symbol_as_output X p = none) ∧
    (∀ (X : List (List Int)) p, X ≠ [] → (∀ row ∈ X, countNonzero row = 1) →
      padded_indices_to_next_symbol_as_output X p = some ([], [])) := by
  refine ⟨fun p => rfl, ?_, ?_⟩
  · intro X p row hp hrow hz
    obtain ⟨r0, rest, rfl⟩ := List.exists_cons_of_ne_nil (List.ne_nil_of_mem hrow)
    simp only [padded_indices_to_next_symbol_as_output]
    by_cases hneg : ((r0 :: rest).map (fun row => (countNonzero row : Int) - 1)).sum < 0
    · rw [if_pos hneg]
    · rw [if_neg hneg, if_pos hp, if_pos ?_]
      have hlt := totalSamples_lt hrow hz
      rw [length_flatMap_samplesRow]
      omega
  · intro X p hne hone
    obtain ⟨r0, rest, rfl⟩ := List.exists_cons_of_ne_nil hne
    have htot : ((r0 :: rest).map (fun row => (countNonzero row : Int) - 1)).sum = 0 := by
      have : ((r0 :: rest).map (fun row => (countNonzero row : Int) - 1))
          = (r0 :: rest).map (fun _ => (0 : Int)) :=
        List.map_congr_left (fun row hrow => by rw [hone row hrow]; simp)
      rw [this, List.map_const', List.sum_replicate, smul_zero]
    simp only [padded_indices_to_next_symbol_as_output]
    rw [if_neg (by omega)]
    by_cases hp : p = "post" ∨ p = "pre"
    · rw [if_pos hp]
      have hflat : (r0 :: rest).flatMap (samplesRow p r0.length) = [] := by
        rw [List.flatMap_eq_nil_iff]
        intro row hrow
        have h1 := hone row hrow
        simp [samplesRow, h1]
      rw [hflat, if_neg (by simp only [List.length_nil]; omega)]
      rfl
    · rw [if_neg hp]
      have hS : ((r0 :: rest).map (fun row => (countNonzero row : Int) - 1)).sum.toNat = 0 := by
        omega
      rw [hS]
      rfl

/-- Witness for C8 (amended): a matrix containing an all-padding row fails;
a matrix of single-positive-entry rows returns the empty output. -/
theorem window_failure_conditions_witness :
    padded_indices_to_next_symbol_as_output [[0,0],[3,5]] "post" = none ∧
    padded_indices_to_next_symbol_as_output [[2,0]] "pre" = some ([], []) :=
  ⟨window_failure_conditions.2.1 [[0,0],[3,5]] "post" [0,0] (Or.inl rfl)
      (by decide) (by decide),
   window_failure_conditions.2.2 [[2,0]] "pre" (by decide) (by decide)⟩

/-- **C2 counterexample.** As stated over arbitrary integer matrices and
"non-zero" entries the claim fails: the empty matrix raises (`X.shape[1]` on a
1-D `np.array([])`), and on `[[-1,5]]` — both entries non-zero, so the claim
predicts one pair — the code counts `row > 0` (one entry) and emits zero
pairs. -/
theorem window_post_nonzero_counterexample :
    padded_indices_to_next_symbol_as_output ([] : List (List Int)) "post" = none ∧
    padded_indices_to_next_symbol_as_output [[-1,5]] "post" = some ([], []) ∧
    ([-1,5] : List Int).countP (fun v => decide (v ≠ 0)) = 2 := by decide

theorem getD_map_range {β} (g : Nat → β) (dval : β) {c n : Nat} (hc : c < n) :
    ((List.range n).map g).getD c dval = g c := by
  rw [List.getD_eq_getElem?_getD, List.getElem?_map, List.getElem?_range hc]
  rfl

theorem getD_eq_of_getElem? {β} {l : List β} {i : Nat} {b dval : β}
    (h : l[i]? = some b) : l.getD i dval = b := by
  rw [List.getD_eq_getElem?_getD, h]
  rfl

theorem fofeRow_getD (idx : α → Nat) (n_symbols num_cols : Nat) (alpha : ℚ)
    (bid : Bool) (seq : List α) {c : Nat} (hc : c < num_cols) :
    (fofeRow idx n_symbols alpha bid num_cols seq).getD c 0
      = (seq.enum.map (fun p =>
          (if idx p.2 = c then alpha ^ (seq.length - p.1 - 1) else 0) +
          (if bid = true ∧ n_symbols + idx p.2 = c then alpha ^ p.1 else 0))).sum := by
  simp only [fofeRow]
  exact getD_map_range _ _ hc

/-- **C5.** For sequence `i` of length `l`, FOFE adds `alpha ^ (l-j-1)` to
cell `(i, idx s)` for the symbol `s` at each position `j`, summing over
repeated occurrences; when bidirectional it additionally adds `alpha ^ j` to
cell `(i, n_symbols + idx s)`, and each row has `n_symbols` columns, or
`2 * n_symbols` when bidirectional. -/
theorem FOFE_cells {idx : α → Nat} {n_symbols : Nat} (alpha : ℚ) (bidirectional : Bool)
    {sequences : List (List α)}
    (hidx : ∀ seq ∈ sequences, ∀ s ∈ seq, idx s < n_symbols) :
    ∃ R, FOFE idx n_symbols alpha bidirectional sequences = some R ∧
      R.length = sequences.length ∧
      (∀ row ∈ R, row.length = if bidirectional then 2 * n_symbols else n_symbols) ∧
      ∀ i c, i < sequences.length → c < n_symbols →
        (R.getD i []).getD c 0 = fofeForwardSpec idx alpha (sequences.getD i []) c ∧
        (bidirectional = true →
          (R.getD i []).getD (n_symbols + c) 0
            = fofeBackwardSpec idx alpha (sequences.getD i []) c) := by
  have hall : (sequences.all fun seq => seq.all fun s => decide (idx s < n_symbols)) = true := by
    simp only [List.all_eq_true, decide_eq_true_eq]
    exact hidx
  refine ⟨sequences.map
    (fofeRow idx n_symbols alpha bidirectional
      (if bidirectional then 2 * n_symbols else n_symbols)), ?_, ?_, ?_, ?_⟩
  · simp only [FOFE, hall, if_true]
  · simp
  · intro row hrow
    obtain ⟨seq, -, rfl⟩ := List.mem_map.1 hrow
    simp [fofeRow]
  · intro i c hi hc
    have hseq : sequences[i]? = some (sequences.getD i []) := by
      rw [List.getD_eq_getElem?_getD, List.getElem?_eq_getElem hi]
      rfl
    have hmem : sequences.getD i [] ∈ sequences := by
      rw [getD_eq_of_getElem? (List.getElem?_eq_getElem hi)]
      exact List.getElem_mem hi
    have hRi : (sequences.map
        (fofeRow idx n_symbols alpha bidirectional
          (if bidirectional then 2 * n_symbols else n_symbols))).getD i []
        = fofeRow idx n_symbols alpha bidirectional
            (if bidirectional then 2 * n_symbols else n_symbols)
            (sequences.getD i []) := by
      refine getD_eq_of_getElem? ?_
      rw [List.getElem?_map, hseq]
      rfl
    rw [hRi]
    have hcn : c < if bidirectional then 2 * n_symbols else n_symbols := by
      cases bidirectional <;> simp <;> omega
    constructor
    · rw [fofeRow_getD idx n_symbols _ alpha bidirectional _ hcn]
      unfold fofeForwardSpec
      congr 1
      refine List.map_congr_left (fun p hp => ?_)
      have h2 : ¬(bidirectional = true ∧ n_symbols + idx p.2 = c) := by
        rintro ⟨-, hcc⟩
        omega
      rw [if_neg h2, add_zero]
    · intro hbid
      subst hbid
      have hcn2 : n_symbols + c < if (true : Bool) then 2 * n_symbols else n_symbols := by
        simp
        omega
      rw [fofeRow_getD idx n_symbols _ alpha true _ hcn2]
      unfold fofeBackwardSpec
      congr 1
      refine List.map_congr_left (fun p hp => ?_)
      have hp2 : p.2 ∈ sequences.getD i [] :=
        List.getElem?_mem (List.mem_enum_iff_getElem?.1 hp)
      have hlt : idx p.2 < n_symbols := hidx _ hmem _ hp2
      have h1 : ¬(idx p.2 = n_symbols + c) := by omega
      rw [if_neg h1, zero_add]
      by_cases hidxc : idx p.2 = c
      · rw [if_pos ⟨rfl, by omega⟩, if_pos hidxc]
      · rw [if_neg (fun hand => hidxc (by omega)), if_neg hidxc]

/-- Witness for C5: identity index with 2 symbols, `alpha = 1/2`,
bidirectional, on the single sequence `[0,1,1]`. -/
theorem FOFE_cells_witness :
    (∀ seq ∈ ([[0,1,1]] : List (List Nat)), ∀ s ∈ seq, (fun n => n) s < 2) ∧
    (∃ R, FOFE (fun n => n) 2 (1/2 : ℚ) true [[0,1,1]] = some R ∧
      R.length = ([[0,1,1]] : List (List Nat)).length ∧
      (∀ row ∈ R, row.length = if true then 2 * 2 else 2) ∧
      ∀ i c, i < ([[0,1,1]] : List (List Nat)).length → c < 2 →
        (R.getD i []).getD c 0
          = fofeForwardSpec (fun n => n) (1/2 : ℚ) (([[0,1,1]] : List (List Nat)).getD i []) c ∧
        ((true : Bool) = true →
          (R.getD i []).getD (2 + c) 0
            = fofeBackwardSpec (fun n => n) (1/2 : ℚ)
                (([[0,1,1]] : List (List Nat)).getD i []) c)) :=
  ⟨by decide, FOFE_cells (1/2 : ℚ) true (by decide)⟩

theorem count_true_map_decide_range {c n : Nat} (hc : c < n) :
    (((List.range n).map (fun k => decide (c = k))).count true) = 1 := by
  rw [List.count_eq_countP, List.countP_map]
  have hcg : ∀ k ∈ List.range n,
      (((fun b => b == true) ∘ fun k => decide (c = k)) k = true
        ↔ ((· == c) : Nat → Bool) k = true) := by
    intro k _
    simp only [Function.comp_apply, beq_true, decide_eq_true_eq, beq_iff_eq]
    exact eq_comm
  rw [List.countP_congr hcg, ← List.count_eq_countP]
  exact List.count_eq_one_of_mem (List.nodup_range n) (List.mem_range.2 hc)

theorem count_true_map_false_range (n : Nat) :
    (((List.range n).map (fun _ => false)).count true) = 0 := by
  simp [List.count_eq_countP, List.countP_map]

theorem sum_indicator_range (m len : Nat) :
    ((List.range m).map (fun j => if j < len then 1 else 0)).sum = min m len := by
  induction m with
  | zero => simp
  | succ k ih =>
    rw [List.range_succ, List.map_append, List.sum_append]
    by_cases h : k < len
    · simp only [ih, if_pos h, List.map_cons, List.map_nil, List.sum_cons, List.sum_nil]
      omega
    · simp only [ih, if_neg h, List.map_cons, List.map_nil, List.sum_cons, List.sum_nil]
      omega

/-- **C6 counterexample.** On the empty sequence list `onehot` raises
(`max` of an empty generator) instead of returning a tensor. -/
theorem onehot_empty_counterexample :
    onehot (fun k : Nat => k) 1 ([] : List (List Nat)) = none := by decide

/-- **C6 (amended).** On a non-empty list of sequences whose symbols are all
in the index, `onehot` returns a boolean tensor of shape
`(n_sequences, max_raw_len, n_symbols)` in which cell `[i,j,k]` is true iff
sequence `i` has a symbol at position `j` that maps to index `k`; hence the
number of true entries in slice `i` equals the length of sequence `i`. -/
theorem onehot_cells {idx : α → Nat} {n_symbols : Nat} {sequences : List (List α)}
    {maxlen : Nat}
    (hml : (sequences.map List.length).max? = some maxlen)
    (hidx : ∀ seq ∈ sequences, ∀ s ∈ seq, idx s < n_symbols) :
    ∃ T, onehot idx n_symbols sequences = some T ∧
      T.length = sequences.length ∧
      (∀ sl ∈ T, sl.length = maxlen ∧ ∀ row ∈ sl, row.length = n_symbols) ∧
      (∀ i j k, i < sequences.length → j < maxlen → k < n_symbols →
        (((T.getD i []).getD j []).getD k false = true ↔
          ∃ h : j < (sequences.getD i []).length,
            idx ((sequences.getD i []).get ⟨j, h⟩) = k)) ∧
      (∀ i, i < sequences.length →
        (T.getD i []).flatten.count true = (sequences.getD i []).length) := by
  have hall : (sequences.all fun seq => seq.all fun s => decide (idx s < n_symbols)) = true := by
    simp only [List.all_eq_true, decide_eq_true_eq]
    exact hidx
  refine ⟨sequences.map (fun seq =>
    (List.range maxlen).map (fun j =>
      (List.range n_symbols).map (fun k =>
        match seq[j]? with
        | some s => decide (idx s = k)
        | none => false))), ?_, by simp, ?_, ?_, ?_⟩
  · simp only [onehot, hml, hall, if_true]
  · intro sl hsl
    obtain ⟨seq, -, rfl⟩ := List.mem_map.1 hsl
    constructor
    · simp
    · intro row hrow
      obtain ⟨j, -, rfl⟩ := List.mem_map.1 hrow
      simp
  · intro i j k hi hj hk
    have hseq : sequences[i]? = some (sequences.getD i []) := by
      rw [List.getD_eq_getElem?_getD, List.getElem?_eq_getElem hi]
      rfl
    have hTi : ((sequences.map (fun seq =>
        (List.range maxlen).map (fun j =>
          (List.range n_symbols).map (fun k =>
            match seq[j]? with
            | some s => decide (idx s = k)
            | none => false)))).getD i [])
        = (List.range maxlen).map (fun j =>
            (List.range n_symbols).map (fun k =>
              match (sequences.getD i [])[j]? with
              | some s => decide (idx s = k)
              | none => false)) := by
      refine getD_eq_of_getElem? ?_
      rw [List.getElem?_map, hseq]
      rfl
    rw [hTi, getD_map_range _ _ hj, getD_map_range _ _ hk]
    cases hjq : (sequences.getD i [])[j]? with
    | none =>
      have hge : (sequences.getD i []).length ≤ j := List.getElem?_eq_none_iff.1 hjq
      simp only [Bool.false_eq_true, false_iff]
      rintro ⟨h, -⟩
      omega
    | some s =>
      have hjl : j < (sequences.getD i []).length := by
        by_contra hge
        rw [List.getElem?_eq_none_iff.2 (by omega)] at hjq
        exact Option.noConfusion hjq
      have hget : (sequences.getD i []).get ⟨j, hjl⟩ = s := by
        have := List.getElem?_eq_getElem hjl
        rw [this] at hjq
        exact Option.some.inj hjq.symm  |>.symm
      simp only [decide_eq_true_eq]
      constructor
      · intro h
        exact ⟨hjl, by rw [hget]; exact h⟩
      · rintro ⟨h, hk2⟩
        rw [← hget]
        exact hk2
  · intro i hi
    have hseq : sequences[i]? = some (sequences.getD i []) := by
      rw [List.getD_eq_getElem?_getD, List.getElem?_eq_getElem hi]
      rfl
    have hmem : sequences.getD i [] ∈ sequences := by
      rw [getD_eq_of_getElem? (List.getElem?_eq_getElem hi)]
      exact List.getElem_mem hi
    have hlen : (sequences.getD i []).length ≤ maxlen :=
      (List.max?_eq_some_iff'.1 hml).2 _ (List.mem_map_of_mem _ hmem)
    have hTi : ((sequences.map (fun seq =>
        (List.range maxlen).map (fun j =>
          (List.range n_symbols).map (fun k =>
            match seq[j]? with
            | some s => decide (idx s = k)
            | none => false)))).getD i [])
        = (List.range maxlen).map (fun j =>
            (List.range n_symbols).map (fun k =>
              match (sequences.getD i [])[j]? with
              | some s => decide (idx s = k)
              | none => false)) := by
      refine getD_eq_of_getElem? ?_
      rw [List.getElem?_map, hseq]
      rfl
    rw [hTi, List.count_flatten, List.map_map]
    have hrowcount : ∀ j ∈ List.range maxlen,
        ((List.count true) ∘ (fun j =>
          (List.range n_symbols).map (fun k =>
            match (sequences.getD i [])[j]? with
            | some s => decide (idx s = k)
            | none => false))) j
        = (fun j => if j < (sequences.getD i []).length then 1 else 0) j := by
      intro j _hj
      cases hjq : (sequences.getD i [])[j]? with
      | none =>
        have hge : (sequences.getD i []).length ≤ j := List.getElem?_eq_none_iff.1 hjq
        simp only [Function.comp_apply, hjq, if_neg (by omega : ¬ j < (sequences.getD i []).length)]
        exact count_true_map_false_range n_symbols
      | some s =>
        have hjl : j < (sequences.getD i []).length := by
          by_contra hge
          rw [List.getElem?_eq_none_iff.2 (by omega)] at hjq
          exact Option.noConfusion hjq
        have hs : s ∈ sequences.getD i [] := List.getElem?_mem hjq
        simp only [Function.comp_apply, hjq, if_pos hjl]
        exact count_true_map_decide_range (hidx _ hmem _ hs)
    rw [List.map_congr_left hrowcount, sum_indicator_range]
    omega

/-- Witness for C6: sequences `[[0,2],[1]]` with the identity index over 3
symbols; `max_raw_len = 2`. -/
theorem onehot_cells_witness :
    ((([[0,2],[1]] : List (List Nat)).map List.length).max? = some 2) ∧
    (∀ seq ∈ ([[0,2],[1]] : List (List Nat)), ∀ s ∈ seq, (fun n => n) s < 3) ∧
    (∃ T, onehot (fun n => n) 3 [[0,2],[1]] = some T ∧
      T.length = ([[0,2],[1]] : List (List Nat)).length ∧
      (∀ sl ∈ T, sl.length = 2 ∧ ∀ row ∈ sl, row.length = 3) ∧
      (∀ i j k, i < ([[0,2],[1]] : List (List Nat)).length → j < 2 → k < 3 →
        (((T.getD i []).getD j []).getD k false = true ↔
          ∃ h : j < (([[0,2],[1]] : List (List Nat)).getD i []).length,
            (fun n => n) ((([[0,2],[1]] : List (List Nat)).getD i []).get ⟨j, h⟩) = k)) ∧
      (∀ i, i < ([[0,2],[1]] : List (List Nat)).length →
        (T.getD i []).flatten.count true
          = (([[0,2],[1]] : List (List Nat)).getD i []).length)) :=
  ⟨by decide, by decide, onehot_cells (by decide) (by decide)⟩

theorem min_min_add_one (c m : ℚ) : min (min c m + 1) m = min (c + 1) m := by
  rcases le_total c m with h | h
  · rw [min_eq_left h]
  · rw [min_eq_right h, min_eq_right (by linarith), min_eq_right (by linarith)]

theorem bowCell_fold_some (idx : α → Nat) (k : Nat) (m : ℚ) :
    ∀ (seq : List α) (c : ℚ),
      seq.foldl (fun acc s => if idx s = k then min (acc + 1) m else acc) (min c m)
        = min (c + ((seq.countP (fun s => decide (idx s = k))) : ℚ)) m
  | [], c => by simp
  | s :: rest, c => by
    simp only [List.foldl_cons]
    by_cases h : idx s = k
    · rw [if_pos h, min_min_add_one, bowCell_fold_some idx k m rest (c + 1)]
      congr 1
      rw [List.countP_cons, if_pos (by simp [h])]
      push_cast
      ring
    · rw [if_neg h, bowCell_fold_some idx k m rest c]
      congr 2
      rw [List.countP_cons]
      simp [h]

theorem bowCell_fold_none (idx : α → Nat) (k : Nat) :
    ∀ (seq : List α) (c : ℚ),
      seq.foldl (fun acc s => if idx s = k then acc + 1 else acc) c
        = c + ((seq.countP (fun s => decide (idx s = k))) : ℚ)
  | [], c => by simp
  | s :: rest, c => by
    simp only [List.foldl_cons]
    by_cases h : idx s = k
    · rw [if_pos h, bowCell_fold_none idx k rest (c + 1), List.countP_cons,
        if_pos (by simp [h])]
      push_cast
      ring
    · rw [if_neg h, bowCell_fold_none idx k rest c, List.countP_cons]
      simp [h]

theorem bowCell_some_eq (idx : α → Nat) {m : ℚ} (hm : 0 < m) (seq : List α) (k : Nat) :
    bowCell idx (some m) seq k
      = min ((seq.countP (fun s => decide (idx s = k)) : ℚ)) m := by
  have key := bowCell_fold_some idx k m seq 0
  rw [min_eq_left (le_of_lt hm), zero_add] at key
  exact key

theorem bowCell_none_eq (idx : α → Nat) (seq : List α) (k : Nat) :
    bowCell idx none seq k = ((seq.countP (fun s => decide (idx s = k))) : ℚ) := by
  have key := bowCell_fold_none idx k seq 0
  rw [zero_add] at key
  exact key

/-- **C7.** For every positive `max_count`, the per-occurrence update
`min(count+1, max_count)` leaves `BOW` cell `(i, k)` equal to
`min(occurrences of symbol k in sequence i, max_count)` — the incremental
clamp equals one final clamp — and with `max_count` unset the cell is exactly
the occurrence count. -/
theorem BOW_cells {idx : α → Nat} {n_symbols : Nat} {mc : ℚ} {sequences : List (List α)}
    (hmc : 0 < mc)
    (hidx : ∀ seq ∈ sequences, ∀ s ∈ seq, idx s < n_symbols) :
    ∃ C Cu, BOW idx n_symbols (some mc) sequences = some C ∧
      BOW idx n_symbols none sequences = some Cu ∧
      ∀ i k, i < sequences.length → k < n_symbols →
        (C.getD i []).getD k 0
          = min (((sequences.getD i []).countP (fun s => decide (idx s = k)) : ℚ)) mc ∧
        (Cu.getD i []).getD k 0
          = (((sequences.getD i []).countP (fun s => decide (idx s = k))) : ℚ) := by
  have hall : (sequences.all fun seq => seq.all fun s => decide (idx s < n_symbols)) = true := by
    simp only [List.all_eq_true, decide_eq_true_eq]
    exact hidx
  refine ⟨sequences.map (fun seq => (List.range n_symbols).map (bowCell idx (some mc) seq)),
    sequences.map (fun seq => (List.range n_symbols).map (bowCell idx none seq)),
    by simp only [BOW, hall, if_true], by simp only [BOW, hall, if_true], ?_⟩
  intro i k hi hk
  have hseq : sequences[i]? = some (sequences.getD i []) := by
    rw [List.getD_eq_getElem?_getD, List.getElem?_eq_getElem hi]
    rfl
  have hCi : ∀ mc' : Option ℚ,
      ((sequences.map (fun seq => (List.range n_symbols).map (bowCell idx mc' seq))).getD i [])
        = (List.range n_symbols).map (bowCell idx mc' (sequences.getD i [])) := by
    intro mc'
    refine getD_eq_of_getElem? ?_
    rw [List.getElem?_map, hseq]
    rfl
  rw [hCi (some mc), hCi none, getD_map_range _ _ hk, getD_map_range _ _ hk]
  exact ⟨bowCell_some_eq idx hmc _ k, bowCell_none_eq idx _ k⟩

/-- Witness for C7: `max_count = 2` on the sequence `[0,0,0,1]` (symbol `0`
occurs three times, clamped to 2). -/
theorem BOW_cells_witness :
    (0 < (2 : ℚ)) ∧
    (∀ seq ∈ ([[0,0,0,1]] : List (List Nat)), ∀ s ∈ seq, (fun n => n) s < 2) ∧
    (∃ C Cu, BOW (fun n => n) 2 (some (2 : ℚ)) [[0,0,0,1]] = some C ∧
      BOW (fun n => n) 2 none [[0,0,0,1]] = some Cu ∧
      ∀ i k, i < ([[0,0,0,1]] : List (List Nat)).length → k < 2 →
        (C.getD i []).getD k 0
          = min (((([[0,0,0,1]] : List (List Nat)).getD i []).countP
              (fun s => decide ((fun n => n) s = k)) : ℚ)) (2 : ℚ) ∧
        (Cu.getD i []).getD k 0
          = (((([[0,0,0,1]] : List (List Nat)).getD i []).countP
              (fun s => decide ((fun n => n) s = k))) : ℚ)) :=
  ⟨by decide, by decide, BOW_cells (by decide) (by decide)⟩
